import Mathlib

/-!
Verification of the pointer-generator summarization model in `model_old.py`
(class `SummarizationModel` and its module-level helpers).

The tensor computations of the source are shallowly embedded:

* Per-batch-row distributions over the (extended) vocabulary are `List ℚ`
  (`_calc_final_dist`, `tf.nn.top_k`), so that concrete instances can be
  evaluated by `decide`.
* Batched per-step quantities in the loss pipeline are functions
  `Fin B → ℝ` (one value per batch element) or `Fin B → ℕ → ℝ`
  (one value per batch element and encoder position / decoder step);
  lists model the Python lists of per-step tensors.
* The GCN layer works over node-feature tensors modelled as functions
  `ℕ → ℕ → ℕ → ℝ` (batch, node, feature); adjacency matrices are
  `ℕ → ℕ → ℕ → ℕ → ℝ` (batch, label, row, column).  All TensorFlow
  operations used by the layer act pointwise in these indices, with
  contractions written as explicit `Finset.range` sums.
* `tf.log` / `tf.sigmoid` are `Real.log` and `1 / (1 + Real.exp (-x))`;
  `tf.nn.dropout` (randomized) is abstracted as an arbitrary tensor
  transformer applied exactly where the source applies dropout.

Definitions keep the names of the source functions they embed; the few
definitions that instead follow the wording of the specification (for
refinement comparisons) carry `spec` in their name and say so in their
doc comment.
-/

/- ------------------------------------------------------------------ -/
/- `_calc_final_dist` (model_old.py lines 487-527), one decoder step,
   one batch row.                                                      -/
/- ------------------------------------------------------------------ -/

/-- One update of `tf.scatter_nd`: add value `p.2` into slot `p.1` of the
accumulator (out-of-range slots are dropped, as `List.set` is then a no-op). -/
def scatterStep (acc : List ℚ) (p : ℕ × ℚ) : List ℚ :=
  acc.set p.1 (acc.getD p.1 0 + p.2)

/-- `tf.scatter_nd indices vals [len]` for one batch row: starting from a
zero vector of length `len`, add each attention value `vals[i]` into slot
`ids[i]`.  Duplicate target indices accumulate by addition. -/
def scatter_nd (ids : List ℕ) (vals : List ℚ) (len : ℕ) : List ℚ :=
  (ids.zip vals).foldl scatterStep (List.replicate len 0)

/-- `SummarizationModel._calc_final_dist` (model_old.py lines 487-527),
restricted to one decoder step and one batch row (the source maps the same
computation over the list of decoder steps and carries a batch dimension on
which every operation acts pointwise):
scale the vocabulary distribution by `p_gen` and the attention distribution
by `1 - p_gen`, extend the vocabulary distribution by `max_art_oovs` zeros,
scatter-add the scaled attention weights into the slots named by
`enc_batch_extend_vocab`, and sum the two extended vectors. -/
def calc_final_dist (p_gen : ℚ) (vocab_dist attn_dist : List ℚ)
    (enc_batch_extend_vocab : List ℕ) (vsize max_art_oovs : ℕ) : List ℚ :=
  let vocab_dist' := vocab_dist.map (fun x => p_gen * x)
  let attn_dist' := attn_dist.map (fun x => (1 - p_gen) * x)
  let extended_vsize := vsize + max_art_oovs
  let extra_zeros : List ℚ := List.replicate max_art_oovs 0
  let vocab_dists_extended := vocab_dist' ++ extra_zeros
  let attn_dists_projected := scatter_nd enc_batch_extend_vocab attn_dist' extended_vsize
  List.zipWith (· + ·) vocab_dists_extended attn_dists_projected

/- ------------------------------------------------------------------ -/
/- Helper lemmas about `scatter_nd`.                                   -/
/- ------------------------------------------------------------------ -/

theorem scatterStep_length (acc : List ℚ) (p : ℕ × ℚ) :
    (scatterStep acc p).length = acc.length := by
  simp [scatterStep]

theorem foldl_scatterStep_length (ps : List (ℕ × ℚ)) (acc : List ℚ) :
    (ps.foldl scatterStep acc).length = acc.length := by
  induction ps generalizing acc with
  | nil => rfl
  | cons p ps ih => simpa [scatterStep] using ih (scatterStep acc p)

theorem scatterStep_getD_eq (acc : List ℚ) (v : ℚ) {j : ℕ} (hj : j < acc.length) :
    (scatterStep acc (j, v)).getD j 0 = acc.getD j 0 + v := by
  simp [scatterStep, List.getD_eq_getElem?_getD, List.getElem?_set_self hj]

theorem scatterStep_getD_ne (acc : List ℚ) (i : ℕ) (v : ℚ) {j : ℕ} (hij : i ≠ j) :
    (scatterStep acc (i, v)).getD j 0 = acc.getD j 0 := by
  simp [scatterStep, List.getD_eq_getElem?_getD, List.getElem?_set_ne hij]

/-- The accumulated value of a `scatter_nd` fold at an in-range slot `j` is the
initial value plus the sum of every scattered value whose index equals `j`. -/
theorem foldl_scatterStep_getD (ps : List (ℕ × ℚ)) (acc : List ℚ) {j : ℕ}
    (hj : j < acc.length) :
    (ps.foldl scatterStep acc).getD j 0 =
      acc.getD j 0 + ((ps.filter (fun p => p.1 = j)).map Prod.snd).sum := by
  induction ps generalizing acc with
  | nil => simp
  | cons p ps ih =>
    obtain ⟨i, v⟩ := p
    by_cases hij : i = j
    · subst hij
      have h1 : (scatterStep acc (i, v)).length = acc.length := scatterStep_length acc _
      rw [List.foldl_cons, ih (scatterStep acc (i, v)) (by omega),
        scatterStep_getD_eq acc v hj]
      simp [add_assoc]
    · have h1 : (scatterStep acc (i, v)).length = acc.length := scatterStep_length acc _
      rw [List.foldl_cons, ih (scatterStep acc (i, v)) (by omega),
        scatterStep_getD_ne acc i v hij]
      simp [hij]

theorem scatterStep_sum (acc : List ℚ) (i : ℕ) (v : ℚ) (hi : i < acc.length) :
    (scatterStep acc (i, v)).sum = acc.sum + v := by
  have hdrop : acc.drop i = acc[i] :: acc.drop (i + 1) := List.drop_eq_getElem_cons hi
  have hsum : acc.sum = (acc.take i).sum + (acc[i] + (acc.drop (i + 1)).sum) := by
    rw [← List.sum_take_add_sum_drop acc i, hdrop, List.sum_cons]
  have hgetD : acc.getD i 0 = acc[i] := by
    simp [List.getD_eq_getElem?_getD, List.getElem?_eq_getElem hi]
  rw [scatterStep, List.sum_set, hgetD]
  simp only [if_pos hi]
  rw [hsum]
  ring

/-- A `scatter_nd` fold whose indices all lie in range adds exactly the total
scattered mass to the total of the accumulator. -/
theorem foldl_scatterStep_sum (ps : List (ℕ × ℚ)) (acc : List ℚ)
    (h : ∀ p ∈ ps, p.1 < acc.length) :
    (ps.foldl scatterStep acc).sum = acc.sum + (ps.map Prod.snd).sum := by
  induction ps generalizing acc with
  | nil => simp
  | cons p ps ih =>
    obtain ⟨i, v⟩ := p
    have hi : i < acc.length := h (i, v) (by simp)
    have h1 : (scatterStep acc (i, v)).length = acc.length := scatterStep_length acc _
    rw [List.foldl_cons, ih (scatterStep acc (i, v)) (by intro q hq; rw [h1]; exact h q (by simp [hq])),
      scatterStep_sum acc i v hi]
    simp [add_assoc]

theorem getD_map_mul (c : ℚ) (l : List ℚ) (j : ℕ) :
    (l.map (fun x => c * x)).getD j 0 = c * l.getD j 0 := by
  rcases lt_or_ge j l.length with hj | hj
  · simp [List.getD_eq_getElem?_getD, List.getElem?_map, List.getElem?_eq_getElem hj]
  · rw [List.getD_eq_default _ _ (by simpa using hj), List.getD_eq_default _ _ hj, mul_zero]

theorem getD_zipWith_add (l₁ l₂ : List ℚ) {j : ℕ} (h₁ : j < l₁.length) (h₂ : j < l₂.length) :
    (List.zipWith (· + ·) l₁ l₂).getD j 0 = l₁.getD j 0 + l₂.getD j 0 := by
  have hlen : j < (List.zipWith (· + ·) l₁ l₂).length := by simp [h₁, h₂]
  simp [List.getD_eq_getElem?_getD, List.getElem?_eq_getElem, h₁, h₂, hlen,
    List.getElem_zipWith]

theorem sum_zipWith_add (l₁ l₂ : List ℚ) (h : l₁.length = l₂.length) :
    (List.zipWith (· + ·) l₁ l₂).sum = l₁.sum + l₂.sum := by
  induction l₁ generalizing l₂ with
  | nil => simp [(List.length_eq_zero.mp h.symm)]
  | cons a l ih =>
    cases l₂ with
    | nil => simp at h
    | cons b l₂ =>
      simp only [List.zipWith_cons_cons, List.sum_cons, ih l₂ (by simpa using h)]
      ring

theorem sum_map_mul_const (c : ℚ) (l : List ℚ) :
    (l.map (fun x => c * x)).sum = c * l.sum := by
  induction l with
  | nil => simp
  | cons a l ih => simp [ih]; ring

theorem map_snd_zip_of_length_eq {α β : Type} (l₁ : List α) (l₂ : List β)
    (h : l₁.length = l₂.length) : (l₁.zip l₂).map Prod.snd = l₂ := by
  induction l₁ generalizing l₂ with
  | nil => simp [(List.length_eq_zero.mp h.symm)]
  | cons a l ih =>
    cases l₂ with
    | nil => simp at h
    | cons b l₂ => simp [ih l₂ (by simpa using h)]

/-- Claim C1: for every decoder step, `_calc_final_dist` produces the
extended-vocabulary distribution slot-by-slot as the vocabulary distribution
scaled by `p_gen` and zero-padded with `max_art_oovs` slots, plus the
scatter-added attention mass: each slot `j` receives the sum (never an
overwrite) of `(1 - p_gen) * attention weight` over all encoder positions
whose extended-vocabulary id equals `j`. -/
theorem calc_final_dist_slot (p_gen : ℚ) (vocab_dist attn_dist : List ℚ)
    (enc_ids : List ℕ) (vsize max_art_oovs j : ℕ)
    (hv : vocab_dist.length = vsize)
    (hlen : enc_ids.length = attn_dist.length)
    (hids : ∀ i ∈ enc_ids, i < vsize + max_art_oovs)
    (hj : j < vsize + max_art_oovs) :
    (calc_final_dist p_gen vocab_dist attn_dist enc_ids vsize max_art_oovs).getD j 0 =
      p_gen * ((vocab_dist ++ List.replicate max_art_oovs 0).getD j 0) +
      (((enc_ids.zip attn_dist).filter (fun p => p.1 = j)).map
        (fun p => (1 - p_gen) * p.2)).sum := by
  simp only [calc_final_dist]
  have hv' : (vocab_dist.map (fun x => p_gen * x)).length = vsize := by simpa using hv
  have hve : (vocab_dist.map (fun x => p_gen * x) ++ List.replicate max_art_oovs (0:ℚ)).length
      = vsize + max_art_oovs := by simp [hv']
  have hap : (scatter_nd enc_ids (attn_dist.map (fun x => (1 - p_gen) * x))
      (vsize + max_art_oovs)).length = vsize + max_art_oovs := by
    simpa [scatter_nd] using
      foldl_scatterStep_length (enc_ids.zip (attn_dist.map (fun x => (1 - p_gen) * x)))
        (List.replicate (vsize + max_art_oovs) 0)
  rw [getD_zipWith_add _ _ (by omega) (by omega)]
  congr 1
  · -- vocabulary part: scaling commutes with zero-padding
    rcases lt_or_ge j vsize with hjv | hjv
    · rw [List.getD_append _ _ _ _ (by omega), List.getD_append _ _ _ _ (by omega),
        getD_map_mul]
    · rw [List.getD_append_right _ _ _ _ (by omega), List.getD_append_right _ _ _ _ (by omega)]
      have hrep : ∀ m, (List.replicate max_art_oovs (0:ℚ)).getD m 0 = 0 := by
        intro m
        rcases lt_or_ge m max_art_oovs with hm | hm
        · simp [List.getD_eq_getElem?_getD, List.getElem?_replicate, hm]
        · rw [List.getD_eq_default]
          simpa using hm
      rw [hrep, hrep, mul_zero]
  · -- attention part: the scatter-add fold sums matching weights
    rw [scatter_nd, foldl_scatterStep_getD _ _ (by simpa using hj)]
    rw [List.zip_map_right, List.filter_map, List.map_map]
    have hgd : (List.replicate (vsize + max_art_oovs) (0:ℚ)).getD j 0 = 0 := by
      simp [List.getD_eq_getElem?_getD, List.getElem?_replicate, hj]
    rw [hgd, zero_add]
    simp [Function.comp_def, Prod.map]

/-- Claim C2: if the vocabulary distribution sums to 1, the attention
distribution sums to 1 with all encoder positions mapped to
extended-vocabulary ids below `vsize + max_art_oovs`, and `p_gen ∈ [0,1]`,
then the distribution produced by `_calc_final_dist` has
`vsize + max_art_oovs` slots and sums to 1 over them. -/
theorem calc_final_dist_sum_one (p_gen : ℚ) (vocab_dist attn_dist : List ℚ)
    (enc_ids : List ℕ) (vsize max_art_oovs : ℕ)
    (hv : vocab_dist.length = vsize)
    (hvs : vocab_dist.sum = 1)
    (hlen : enc_ids.length = attn_dist.length)
    (has : attn_dist.sum = 1)
    (hids : ∀ i ∈ enc_ids, i < vsize + max_art_oovs)
    (h0 : 0 ≤ p_gen) (h1 : p_gen ≤ 1) :
    (calc_final_dist p_gen vocab_dist attn_dist enc_ids vsize max_art_oovs).length
        = vsize + max_art_oovs ∧
    (calc_final_dist p_gen vocab_dist attn_dist enc_ids vsize max_art_oovs).sum = 1 := by
  have hv' : (vocab_dist.map (fun x => p_gen * x)).length = vsize := by simpa using hv
  have hlen' : enc_ids.length = (attn_dist.map (fun x => (1 - p_gen) * x)).length := by
    simpa using hlen
  have hap : (scatter_nd enc_ids (attn_dist.map (fun x => (1 - p_gen) * x))
      (vsize + max_art_oovs)).length = vsize + max_art_oovs := by
    simpa [scatter_nd] using
      foldl_scatterStep_length (enc_ids.zip (attn_dist.map (fun x => (1 - p_gen) * x)))
        (List.replicate (vsize + max_art_oovs) 0)
  have hsc : (scatter_nd enc_ids (attn_dist.map (fun x => (1 - p_gen) * x))
      (vsize + max_art_oovs)).sum = 1 - p_gen := by
    rw [scatter_nd, foldl_scatterStep_sum]
    · rw [map_snd_zip_of_length_eq _ _ hlen', sum_map_mul_const]
      simp [has]
    · intro p hp
      have := List.of_mem_zip hp
      simpa using hids p.1 this.1
  constructor
  · simp [calc_final_dist, hv', hap]
  · simp only [calc_final_dist]
    rw [sum_zipWith_add _ _ (by simp [hv', hap]), List.sum_append, sum_map_mul_const, hvs,
      hsc]
    simp

/-- Witness for C1 at a concrete batch where two encoder positions share one
OOV id (id 2): the scattered mass at that id is the sum of both weights. -/
theorem calc_final_dist_slot_witness :
    (∀ i ∈ [0, 2, 2], i < 2 + 1) ∧
    (calc_final_dist (1/2) ([1/2, 1/2] : List ℚ) ([1/4, 1/4, 1/2] : List ℚ)
        [0, 2, 2] 2 1).getD 2 0 =
      (1/2) * ((([1/2, 1/2] : List ℚ) ++ List.replicate 1 0).getD 2 0) +
      ((([0, 2, 2].zip ([1/4, 1/4, 1/2] : List ℚ)).filter (fun p => p.1 = 2)).map
        (fun p => (1 - 1/2) * p.2)).sum :=
  ⟨by decide, calc_final_dist_slot (1/2) _ _ _ 2 1 2 (by decide) (by decide) (by decide)
    (by decide)⟩

/-- Witness for C2 at the same concrete batch. -/
theorem calc_final_dist_sum_one_witness :
    (([1/2, 1/2] : List ℚ).sum = 1 ∧ ([1/4, 1/4, 1/2] : List ℚ).sum = 1 ∧
      (0:ℚ) ≤ 1/2 ∧ (1/2:ℚ) ≤ 1) ∧
    ((calc_final_dist (1/2) ([1/2, 1/2] : List ℚ) ([1/4, 1/4, 1/2] : List ℚ)
        [0, 2, 2] 2 1).length = 2 + 1 ∧
     (calc_final_dist (1/2) ([1/2, 1/2] : List ℚ) ([1/4, 1/4, 1/2] : List ℚ)
        [0, 2, 2] 2 1).sum = 1) :=
  ⟨by norm_num, calc_final_dist_sum_one (1/2) _ _ _ 2 1 (by decide) (by norm_num)
    (by decide) (by norm_num) (by decide) (by norm_num) (by norm_num)⟩

/- ------------------------------------------------------------------ -/
/- `_mask_and_avg` (model_old.py lines 1139-1151) and the
   pointer-generator loss (lines 718-733).                             -/
/- ------------------------------------------------------------------ -/

/-- Python's `enumerate` followed by a map: `mapEnum f k [a₀, a₁, ...] =
[f k a₀, f (k+1) a₁, ...]`. -/
def mapEnum {α β : Type} (f : ℕ → α → β) : ℕ → List α → List β
  | _, [] => []
  | k, a :: l => f k a :: mapEnum f (k + 1) l

/-- `dec_lens = tf.reduce_sum(padding_mask, axis=1)` (model_old.py line 1148):
the per-example sum of the decoder padding-mask row. -/
noncomputable def dec_lens (B T : ℕ) (padding_mask : Fin B → ℕ → ℝ) : Fin B → ℝ :=
  fun b => ∑ t ∈ Finset.range T, padding_mask b t

/-- `_mask_and_avg` (model_old.py lines 1139-1151).  `values` is the list
(length `max_dec_steps`) of per-step tensors of shape `(batch_size)`;
each is multiplied by its step's padding-mask column, the per-step products
are summed, divided per example by `dec_lens` (the true decoder length),
and the per-example values are averaged over the batch with
`tf.reduce_mean`. -/
noncomputable def mask_and_avg (B : ℕ) (values : List (Fin B → ℝ))
    (padding_mask : Fin B → ℕ → ℝ) : ℝ :=
  let lens := dec_lens B values.length padding_mask
  let values_per_step := mapEnum (fun dec_step v => fun b => v b * padding_mask b dec_step) 0 values
  let values_per_ex := fun b => ((values_per_step.map (fun v => v b)).sum) / lens b
  (∑ b, values_per_ex b) / (B : ℝ)

/-- Per-step pointer-generator losses (model_old.py lines 721-730): for each
decoder step, gather the extended-distribution probability of that step's
target token and negate its logarithm.  `final_dists` is the list of per-step
extended distributions (batch element ↦ extended-vocabulary id ↦ probability),
`target_batch` the per-example target token ids per step. -/
noncomputable def pg_loss_per_step (B : ℕ) (final_dists : List (Fin B → ℕ → ℝ))
    (target_batch : Fin B → ℕ → ℕ) : List (Fin B → ℝ) :=
  mapEnum (fun dec_step dist => fun b => -Real.log (dist b (target_batch b dec_step))) 0 final_dists

/-- The pointer-generator training loss `self._loss` (model_old.py line 733):
`_mask_and_avg` applied to the per-step gathered negative log probabilities. -/
noncomputable def pg_loss (B : ℕ) (final_dists : List (Fin B → ℕ → ℝ))
    (target_batch : Fin B → ℕ → ℕ) (dec_padding_mask : Fin B → ℕ → ℝ) : ℝ :=
  mask_and_avg B (pg_loss_per_step B final_dists target_batch) dec_padding_mask

/-- The pointer-generator loss as worded by the specification (this definition
follows the spec's words, for comparison with `pg_loss` taken from the
source): per step gather the gold probability, negative-log it, mask it, then
per example divide the summed masked per-step losses by that example's true
decoder length (its padding-mask row sum), and average across the batch. -/
noncomputable def pg_loss_spec (B : ℕ) (final_dists : List (Fin B → ℕ → ℝ))
    (target_batch : Fin B → ℕ → ℕ) (dec_padding_mask : Fin B → ℕ → ℝ) : ℝ :=
  (∑ b, (∑ t ∈ Finset.range final_dists.length,
      dec_padding_mask b t *
        (-Real.log ((final_dists.getD t (fun _ _ => 0)) b (target_batch b t)))) /
    (∑ t ∈ Finset.range final_dists.length, dec_padding_mask b t)) / (B : ℝ)

theorem mapEnum_length {α β : Type} (f : ℕ → α → β) (k : ℕ) (l : List α) :
    (mapEnum f k l).length = l.length := by
  induction l generalizing k with
  | nil => rfl
  | cons a l ih => simp [mapEnum, ih]

theorem mapEnum_mapEnum {α β γ : Type} (g : ℕ → α → β) (f : ℕ → β → γ) (k : ℕ) (l : List α) :
    mapEnum f k (mapEnum g k l) = mapEnum (fun t a => f t (g t a)) k l := by
  induction l generalizing k with
  | nil => rfl
  | cons a l ih => simp [mapEnum, ih]

/-- Evaluating a `mapEnum` list pointwise at a batch element and summing
equals the explicit sum over the step index. -/
theorem sum_map_mapEnum {α : Type} {B : ℕ} (f : ℕ → α → Fin B → ℝ) (k : ℕ) (l : List α)
    (d : α) (b : Fin B) :
    ((mapEnum f k l).map (fun v => v b)).sum =
      ∑ t ∈ Finset.range l.length, f (k + t) (l.getD t d) b := by
  induction l generalizing k with
  | nil => simp [mapEnum]
  | cons a l ih =>
    rw [List.length_cons, Finset.sum_range_succ']
    have h4 : ∑ t ∈ Finset.range l.length, f (k + (t + 1)) ((a :: l).getD (t + 1) d) b
        = ∑ t ∈ Finset.range l.length, f (k + 1 + t) (l.getD t d) b := by
      apply Finset.sum_congr rfl
      intro t _
      have h1 : k + (t + 1) = k + 1 + t := by omega
      rw [h1]
      rfl
    rw [h4]
    simp only [mapEnum, List.map_cons, List.sum_cons, ih (k + 1)]
    have h3 : (a :: l).getD 0 d = a := rfl
    rw [h3, Nat.add_zero]
    exact add_comm _ _

/-- Claim C3: in pointer-generator mode the training loss gathers each step's
gold-token probability from the extended distribution, negative-logs it,
masks it by the decoder padding mask, divides each example's summed masked
losses by that example's true (unpadded) decoder length — the sum of its
padding-mask row, not the maximum decoder length — and averages the
per-example values across the batch. -/
theorem pg_loss_eq_spec (B : ℕ) (final_dists : List (Fin B → ℕ → ℝ))
    (target_batch : Fin B → ℕ → ℕ) (dec_padding_mask : Fin B → ℕ → ℝ) :
    pg_loss B final_dists target_batch dec_padding_mask =
      pg_loss_spec B final_dists target_batch dec_padding_mask := by
  rw [pg_loss, pg_loss_spec, mask_and_avg]
  simp only [pg_loss_per_step, mapEnum_mapEnum, mapEnum_length, dec_lens]
  congr 1
  apply Finset.sum_congr rfl
  intro b _
  rw [sum_map_mapEnum _ _ _ (fun _ _ => 0) b]
  congr 1
  apply Finset.sum_congr rfl
  intro t _
  simp [mul_comm]

/- ------------------------------------------------------------------ -/
/- `_coverage_loss` (model_old.py lines 1154-1169).                    -/
/- ------------------------------------------------------------------ -/

/-- The loop of `_coverage_loss` (model_old.py lines 1162-1167): starting
from the given running coverage, emit for each attention distribution the
per-example sum over the `L` encoder positions of the elementwise minimum of
that distribution and the current coverage, then add the distribution into
the coverage and continue. -/
noncomputable def covGo (B L : ℕ) :
    (Fin B → ℕ → ℝ) → List (Fin B → ℕ → ℝ) → List (Fin B → ℝ)
  | _, [] => []
  | coverage, a :: rest =>
      (fun b => ∑ i ∈ Finset.range L, min (a b i) (coverage b i)) ::
        covGo B L (fun b i => coverage b i + a b i) rest

/-- `_coverage_loss` (model_old.py lines 1154-1169): the coverage accumulator
starts at zero (`tf.zeros_like`), the per-step coverage losses are collected
by `covGo`, and the result is masked and averaged by `_mask_and_avg`. -/
noncomputable def coverage_loss (B L : ℕ) (attn_dists : List (Fin B → ℕ → ℝ))
    (padding_mask : Fin B → ℕ → ℝ) : ℝ :=
  mask_and_avg B (covGo B L (fun _ _ => 0) attn_dists) padding_mask

/-- The coverage loss as worded by the specification (this definition follows
the spec's words, for comparison with `coverage_loss` taken from the source):
the step-`t` contribution is the sum over encoder positions of the minimum of
step `t`'s attention distribution and the accumulated coverage
`∑_{s<t} attn_s`, masked and averaged exactly like the base loss. -/
noncomputable def coverage_loss_spec (B L : ℕ) (attn_dists : List (Fin B → ℕ → ℝ))
    (padding_mask : Fin B → ℕ → ℝ) : ℝ :=
  mask_and_avg B ((List.range attn_dists.length).map (fun t => fun b =>
    ∑ i ∈ Finset.range L, min ((attn_dists.getD t (fun _ _ => 0)) b i)
      (∑ s ∈ Finset.range t, (attn_dists.getD s (fun _ _ => 0)) b i))) padding_mask

/-- Closed form of the `_coverage_loss` fold: the `t`-th emitted per-step
value compares attention `t` with the starting coverage plus the sum of all
earlier attention distributions. -/
theorem covGo_eq (B L : ℕ) (cov : Fin B → ℕ → ℝ) (l : List (Fin B → ℕ → ℝ)) :
    covGo B L cov l = (List.range l.length).map (fun t => fun b =>
      ∑ i ∈ Finset.range L, min ((l.getD t (fun _ _ => 0)) b i)
        (cov b i + ∑ s ∈ Finset.range t, (l.getD s (fun _ _ => 0)) b i)) := by
  induction l generalizing cov with
  | nil => rfl
  | cons a l ih =>
    rw [List.length_cons, List.range_succ_eq_map, List.map_cons, List.map_map, covGo,
      ih (fun b i => cov b i + a b i)]
    congr 1
    · funext b
      apply Finset.sum_congr rfl
      intro i _
      simp [List.getD_cons_zero]
    · apply List.map_congr_left
      intro t _
      funext b
      apply Finset.sum_congr rfl
      intro i _
      have hsucc : ∀ m : ℕ, (Nat.succ ∘ fun x => x) t = t + 1 := by intro m; rfl
      simp only [Function.comp_apply, Nat.succ_eq_add_one, List.getD_cons_succ]
      congr 1
      rw [Finset.sum_range_succ']
      simp only [List.getD_cons_succ, List.getD_cons_zero]
      ring

/-- Claim C4: `_coverage_loss` computes exactly the specified quantity — a
zero-initialized running coverage accumulator, a per-step per-example
contribution equal to the encoder-position sum of the elementwise minimum of
the step's attention distribution and the accumulator (which is then advanced
by adding that distribution), masked by the decoder padding mask and averaged
with the same per-example true-length normalization as the base loss. -/
theorem coverage_loss_eq_spec (B L : ℕ) (attn_dists : List (Fin B → ℕ → ℝ))
    (padding_mask : Fin B → ℕ → ℝ) :
    coverage_loss B L attn_dists padding_mask =
      coverage_loss_spec B L attn_dists padding_mask := by
  rw [coverage_loss, coverage_loss_spec, covGo_eq]
  simp

/- ------------------------------------------------------------------ -/
/- Coverage-loss monotonicity on repeated one-hot attention (claim C5).-/
/- ------------------------------------------------------------------ -/

/-- A single-example attention distribution placing all its mass (weight 1)
on encoder position `j`. -/
def onehotAttn (j : ℕ) : Fin 1 → ℕ → ℝ := fun _ i => if i = j then 1 else 0

/-- A decoder padding mask with every step unmasked. -/
def onesMask : Fin 1 → ℕ → ℝ := fun _ _ => 1

theorem getD_map_range {α : Type} (f : ℕ → α) (T t : ℕ) (ht : t < T) (d : α) :
    ((List.range T).map f).getD t d = f t := by
  rw [List.getD_eq_getElem?_getD, List.getElem?_map, List.getElem?_range ht]
  rfl

/-- The `_coverage_loss` fold on `T` copies of a one-hot attention
distribution, starting from coverage `m · onehot`: step `t` contributes
`min 1 (m + t)`. -/
theorem covGo_onehot (L j : ℕ) (hj : j < L) (T m : ℕ) :
    covGo 1 L (fun b i => (m : ℝ) * onehotAttn j b i) (List.replicate T (onehotAttn j)) =
      (List.range T).map (fun t => fun _ => min 1 (((m + t : ℕ) : ℕ) : ℝ)) := by
  induction T generalizing m with
  | zero => rfl
  | succ T ih =>
    rw [List.replicate_succ, covGo, List.range_succ_eq_map, List.map_cons, List.map_map]
    congr 1
    · funext b
      have hterm : ∀ i ∈ Finset.range L,
          min (onehotAttn j b i) ((m : ℝ) * onehotAttn j b i) =
            if i = j then min 1 (m : ℝ) else 0 := by
        intro i _
        by_cases hij : i = j <;> simp [onehotAttn, hij]
      rw [Finset.sum_congr rfl hterm, Finset.sum_ite_eq' (Finset.range L) j]
      simp [Finset.mem_range.mpr hj]
    · have hcov : (fun (b : Fin 1) i => (m : ℝ) * onehotAttn j b i + onehotAttn j b i) =
          (fun b i => (((m + 1 : ℕ) : ℕ) : ℝ) * onehotAttn j b i) := by
        funext b i
        push_cast
        ring
      rw [hcov, ih (m + 1)]
      apply List.map_congr_left
      intro t _
      funext b
      congr 2
      omega

/-- The `_coverage_loss` fold from zero coverage on `T` copies of a one-hot
attention distribution: step `t` contributes `min 1 t` (0 at step 0, 1 at
every later step). -/
theorem covGo_onehot_zero (L j : ℕ) (hj : j < L) (T : ℕ) :
    covGo 1 L (fun _ _ => 0) (List.replicate T (onehotAttn j)) =
      (List.range T).map (fun t => fun _ => min 1 ((t : ℕ) : ℝ)) := by
  have h := covGo_onehot L j hj T 0
  simpa using h

theorem sum_min_one_range (T : ℕ) (hT : 1 ≤ T) :
    ∑ t ∈ Finset.range T, min 1 ((t : ℕ) : ℝ) = (T : ℝ) - 1 := by
  induction T with
  | zero => omega
  | succ T ih =>
    rcases Nat.eq_zero_or_pos T with hT0 | hT0
    · subst hT0
      simp
    · rw [Finset.sum_range_succ, ih hT0]
      have hmin : min 1 ((T : ℕ) : ℝ) = 1 := by
        apply min_eq_left
        exact_mod_cast hT0
      rw [hmin]
      push_cast
      ring

/-- Closed form of the coverage loss on `T ≥ 1` unmasked decoder steps of
identical one-hot attention: `(T - 1) / T`. -/
theorem coverage_loss_onehot (L j : ℕ) (hj : j < L) (T : ℕ) (hT : 1 ≤ T) :
    coverage_loss 1 L (List.replicate T (onehotAttn j)) onesMask = ((T : ℝ) - 1) / T := by
  rw [coverage_loss, covGo_onehot_zero L j hj T, mask_and_avg]
  simp only [List.length_map, List.length_range]
  have hnum : ∀ b : Fin 1,
      ((mapEnum (fun dec_step v => fun b => v b * onesMask b dec_step) 0
        ((List.range T).map (fun t => fun _ => min 1 ((t : ℕ) : ℝ)))).map
          (fun v => v b)).sum = (T : ℝ) - 1 := by
    intro b
    rw [sum_map_mapEnum _ _ _ (fun _ => 0) b]
    rw [List.length_map, List.length_range]
    rw [← sum_min_one_range T hT]
    apply Finset.sum_congr rfl
    intro t ht
    rw [getD_map_range _ _ _ (Finset.mem_range.mp ht), Nat.zero_add]
    simp [onesMask]
  have hlens : ∀ b : Fin 1, dec_lens 1 T onesMask b = (T : ℝ) := by
    intro b
    simp [dec_lens, onesMask]
  rw [Fin.sum_univ_one, hnum 0, hlens 0]
  norm_num

/-- Claim C5: with every decoder step's attention distribution placing its
full mass on the same encoder position `j` and all steps unmasked, the
coverage loss is monotonically non-decreasing in the number of decoder
steps, and each per-step coverage-loss contribution beyond the first step is
strictly positive. -/
theorem coverage_loss_monotone (L j T T' : ℕ) (hj : j < L) (hT : 1 ≤ T) (hTT' : T ≤ T') :
    coverage_loss 1 L (List.replicate T (onehotAttn j)) onesMask ≤
      coverage_loss 1 L (List.replicate T' (onehotAttn j)) onesMask ∧
    ∀ t, 1 ≤ t → t < T → ∀ b : Fin 1,
      0 < (covGo 1 L (fun _ _ => 0) (List.replicate T (onehotAttn j))).getD t
            (fun _ => 0) b := by
  constructor
  · rw [coverage_loss_onehot L j hj T hT, coverage_loss_onehot L j hj T' (le_trans hT hTT')]
    have h0 : (0 : ℝ) < T := by exact_mod_cast Nat.lt_of_lt_of_le Nat.zero_lt_one hT
    have h0' : (0 : ℝ) < T' := by
      exact_mod_cast Nat.lt_of_lt_of_le Nat.zero_lt_one (le_trans hT hTT')
    rw [div_le_div_iff₀ h0 h0']
    have hc : (T : ℝ) ≤ (T' : ℝ) := by exact_mod_cast hTT'
    nlinarith [hc]
  · intro t ht htT b
    rw [covGo_onehot_zero L j hj T, getD_map_range _ _ _ htT]
    have hmin : min 1 ((t : ℕ) : ℝ) = 1 := by
      apply min_eq_left
      exact_mod_cast ht
    rw [hmin]
    norm_num

/-- Witness for C5 at encoder length 1, position 0, step counts 2 ≤ 3. -/
theorem coverage_loss_monotone_witness :
    ((0 : ℕ) < 1 ∧ (1 : ℕ) ≤ 2 ∧ (2 : ℕ) ≤ 3) ∧
    (coverage_loss 1 1 (List.replicate 2 (onehotAttn 0)) onesMask ≤
       coverage_loss 1 1 (List.replicate 3 (onehotAttn 0)) onesMask ∧
     ∀ t, 1 ≤ t → t < 2 → ∀ b : Fin 1,
       0 < (covGo 1 1 (fun _ _ => 0) (List.replicate 2 (onehotAttn 0))).getD t
             (fun _ => 0) b) :=
  ⟨by decide, coverage_loss_monotone 1 0 2 3 (by decide) (by decide) (by decide)⟩

/- ------------------------------------------------------------------ -/
/- Division safety of `_mask_and_avg` (claim C9).                      -/
/- ------------------------------------------------------------------ -/

/-- Claim C9: `_mask_and_avg` divides each example's summed masked values by
`dec_lens`, the sum of that example's padding-mask row, with no guard.  For a
0/1-valued padding mask that divisor is zero exactly when the example's row
is all zeros (no non-padded decoder step), and it is strictly positive
exactly when the example has at least one non-padded step — so a batch with
an all-zero mask row makes `_mask_and_avg` divide by zero. -/
theorem dec_lens_zero_iff (B T : ℕ) (padding_mask : Fin B → ℕ → ℝ)
    (h01 : ∀ b t, padding_mask b t = 0 ∨ padding_mask b t = 1) :
    ∀ b : Fin B,
      (dec_lens B T padding_mask b = 0 ↔ ∀ t < T, padding_mask b t = 0) ∧
      (0 < dec_lens B T padding_mask b ↔ ∃ t, t < T ∧ padding_mask b t = 1) := by
  intro b
  have hnonneg : ∀ t ∈ Finset.range T, 0 ≤ padding_mask b t := by
    intro t _
    rcases h01 b t with h | h
    · rw [h]
    · rw [h]
      norm_num
  constructor
  · rw [dec_lens, Finset.sum_eq_zero_iff_of_nonneg hnonneg]
    constructor
    · intro h t ht
      exact h t (Finset.mem_range.mpr ht)
    · intro h t ht
      exact h t (Finset.mem_range.mp ht)
  · constructor
    · intro hpos
      by_contra hno
      push_neg at hno
      have hall : ∀ t ∈ Finset.range T, padding_mask b t = 0 := by
        intro t ht
        rcases h01 b t with h | h
        · exact h
        · exact absurd h (by simpa using hno t (Finset.mem_range.mp ht))
      rw [dec_lens, Finset.sum_eq_zero hall] at hpos
      exact lt_irrefl 0 hpos
    · rintro ⟨t, htT, ht1⟩
      rw [dec_lens]
      apply Finset.sum_pos' hnonneg
      exact ⟨t, Finset.mem_range.mpr htT, by rw [ht1]; exact zero_lt_one⟩

/-- Witness for C9: the all-padded single-example mask. -/
theorem dec_lens_zero_iff_witness :
    (∀ (b : Fin 1) (t : ℕ), (fun (_ : Fin 1) (_ : ℕ) => (0:ℝ)) b t = 0 ∨
      (fun (_ : Fin 1) (_ : ℕ) => (0:ℝ)) b t = 1) ∧
    (∀ b : Fin 1,
      (dec_lens 1 1 (fun _ _ => (0:ℝ)) b = 0 ↔ ∀ t < 1, (fun (_ : Fin 1) (_ : ℕ) => (0:ℝ)) b t = 0) ∧
      (0 < dec_lens 1 1 (fun _ _ => (0:ℝ)) b ↔ ∃ t, t < 1 ∧ (fun (_ : Fin 1) (_ : ℕ) => (0:ℝ)) b t = 1)) :=
  ⟨fun _ _ => Or.inl rfl, dec_lens_zero_iff 1 1 (fun _ _ => 0) (fun _ _ => Or.inl rfl)⟩

/- ------------------------------------------------------------------ -/
/- Total training objective and regularization (claim C7).             -/
/- ------------------------------------------------------------------ -/

/-- `tf.nn.l2_loss`: half the sum of squares of a tensor's entries. -/
def l2_loss (t : List ℚ) : ℚ := (t.map (fun x => x ^ 2)).sum / 2

/-- `tf.contrib.layers.l2_regularizer(scale)` applied to a tensor:
`scale * l2_loss t`.  `self._regularizer` (model_old.py line 109) is this
function with `scale = beta_l2`. -/
def l2_regularizer (scale : ℚ) (t : List ℚ) : ℚ := scale * l2_loss t

/-- The `tf.GraphKeys.REGULARIZATION_LOSSES` collection: for every variable
created with `regularizer=self._regularizer`, TensorFlow stores the scalar
penalty `self._regularizer(w) = beta_l2 * l2_loss w`. -/
def regularization_losses (beta_l2 : ℚ) (weights : List (List ℚ)) : List ℚ :=
  weights.map (fun w => l2_regularizer beta_l2 w)

/-- `tf.contrib.layers.apply_regularization(regularizer, tensor_list)`:
the sum of `regularizer` applied to every tensor in the list. -/
def apply_regularization (regularizer : List ℚ → ℚ) (tensors : List (List ℚ)) : ℚ :=
  (tensors.map regularizer).sum

/-- The scalar minimized by `_add_train_op` (model_old.py lines 739-740,
746-751 and 953): the base loss, plus — when `use_regularizer` —
`apply_regularization(self._regularizer, REGULARIZATION_LOSSES)` (note the
source passes the collection of already-computed scalar penalties, each
wrapped here as a one-element tensor, to `apply_regularization`, which
applies the L2 regularizer to them again), plus — when `coverage` —
`cov_loss_wt` times the coverage loss (`loss_to_minimize = self._total_loss
if self._hps.coverage else self._loss`). -/
def training_objective (coverage use_regularizer : Bool)
    (base_loss cov_loss_wt coverage_loss_val beta_l2 : ℚ)
    (weights : List (List ℚ)) : ℚ :=
  let loss := if use_regularizer then
      base_loss + apply_regularization (l2_regularizer beta_l2)
        ((regularization_losses beta_l2 weights).map (fun x => [x]))
    else base_loss
  let total_loss := loss + cov_loss_wt * coverage_loss_val
  if coverage then total_loss else loss

/-- Claim C7 (failing input): with a single regularizer-tagged weight tensor
`[4]` and `beta_l2 = 1`, the claimed regularization penalty — the sum of L2
penalties `beta_l2 * l2_loss w` — is `8`, but the code adds `32`, because it
applies the L2 regularizer a second time to the already-computed penalty
collection.  (With coverage disabled and base loss 0 the minimized scalar is
exactly the regularization term.) -/
theorem training_objective_double_reg :
    training_objective false true 0 0 0 1 [[4]] = 32 ∧
    (regularization_losses 1 [[4]]).sum = 8 ∧ (32 : ℚ) ≠ 8 := by
  refine ⟨?_, ?_, by norm_num⟩
  · norm_num [training_objective, apply_regularization, regularization_losses,
      l2_regularizer, l2_loss]
  · norm_num [regularization_losses, l2_regularizer, l2_loss]

/- ------------------------------------------------------------------ -/
/- Decode mode: `tf.nn.top_k` on the single decoder-step distribution
   (model_old.py lines 753-760).                                       -/
/- ------------------------------------------------------------------ -/

/-- `tf.log` on probabilities, with `log 0 = -∞` as in IEEE arithmetic
(negative inputs do not arise for probabilities). -/
noncomputable def tfLog (x : ℚ) : EReal :=
  if x ≤ 0 then ⊥ else ((Real.log (x : ℝ) : ℝ) : EReal)

/-- The comparison used to model `tf.nn.top_k`'s ordering: descending by
value (ties keep the stable sort's original — lower-index-first — order). -/
def topkLe : ℕ × ℚ → ℕ × ℚ → Bool := fun p q => decide (q.2 ≤ p.2)

/-- `tf.nn.top_k(dist, k)` on one batch row: the `k` largest entries of
`dist` in descending order, together with their indices. -/
def top_k (dist : List ℚ) (k : ℕ) : List ℚ × List ℕ :=
  let sorted := dist.enum.mergeSort topkLe
  ((sorted.take k).map Prod.snd, (sorted.take k).map Prod.fst)

/-- The decode-mode branch of `_add_seq2seq` (model_old.py lines 753-760):
assert that `final_dists` holds exactly one decoder step's distributions
(`none` models the failed `assert len(final_dists) == 1`), then take the
`batch_size * 2` largest probabilities of each batch row and their
log-probabilities (`self._topk_ids`, `self._topk_log_probs`). -/
noncomputable def decode_topk (batch_size : ℕ) (final_dists : List (List (List ℚ))) :
    Option (List (List ℕ) × List (List EReal)) :=
  if final_dists.length = 1 then
    let fd := final_dists.headI
    some (fd.map (fun row => (top_k row (batch_size * 2)).2),
          fd.map (fun row => ((top_k row (batch_size * 2)).1).map tfLog))
  else none

theorem tfLog_le_tfLog {a b : ℚ} (hba : b ≤ a) : tfLog b ≤ tfLog a := by
  rw [tfLog, tfLog]
  by_cases hb : b ≤ 0
  · rw [if_pos hb]
    exact bot_le
  · have hbpos : 0 < b := not_le.mp hb
    have hapos : 0 < a := lt_of_lt_of_le hbpos hba
    rw [if_neg hb, if_neg (not_le.mpr hapos)]
    rw [EReal.coe_le_coe_iff]
    exact Real.log_le_log (by exact_mod_cast hbpos) (by exact_mod_cast hba)

/-- The values returned by `top_k` are pairwise non-increasing. -/
theorem top_k_pairwise (dist : List ℚ) (k : ℕ) :
    List.Pairwise (fun a b : ℚ => b ≤ a) (top_k dist k).1 := by
  have hs := @List.sorted_mergeSort (ℕ × ℚ) topkLe
      (fun a b c hab hbc => by
        simp only [topkLe, decide_eq_true_eq] at *
        exact le_trans hbc hab)
      (fun a b => by
        simp only [topkLe, Bool.or_eq_true, decide_eq_true_eq]
        exact le_total b.2 a.2)
      dist.enum
  have hs' : List.Pairwise (fun p q : ℕ × ℚ => q.2 ≤ p.2) (dist.enum.mergeSort topkLe) :=
    hs.imp (by intro a b h; simpa [topkLe] using h)
  rw [top_k, List.pairwise_map]
  exact hs'.sublist (List.take_sublist k _)

theorem top_k_length (dist : List ℚ) (k : ℕ) (hk : k ≤ dist.length) :
    (top_k dist k).1.length = k ∧ (top_k dist k).2.length = k := by
  constructor <;>
    simp [top_k, List.length_take, List.length_mergeSort, List.enum_length,
      Nat.min_eq_left hk]

/-- Claim C8: in decode mode the model asserts that exactly one decoder
step's output distribution is present, and — given that each batch row of
that distribution has at least `batch_size * 2` (nonnegative) entries —
`_topk_ids` and `_topk_log_probs` have shape
`(batch_size, batch_size * 2)` with the log-probabilities non-increasing
along the second axis. -/
theorem decode_topk_shape (batch_size : ℕ) (final_dists : List (List (List ℚ)))
    (h1 : final_dists.length = 1)
    (hrows : final_dists.headI.length = batch_size)
    (hwide : ∀ row ∈ final_dists.headI, batch_size * 2 ≤ row.length)
    (hnonneg : ∀ row ∈ final_dists.headI, ∀ x ∈ row, 0 ≤ x) :
    (∀ fds : List (List (List ℚ)), (decode_topk batch_size fds).isSome ↔ fds.length = 1) ∧
    ∃ ids lps, decode_topk batch_size final_dists = some (ids, lps) ∧
      ids.length = batch_size ∧ lps.length = batch_size ∧
      (∀ r ∈ ids, r.length = batch_size * 2) ∧
      (∀ r ∈ lps, r.length = batch_size * 2) ∧
      (∀ r ∈ lps, List.Sorted (fun a b : EReal => b ≤ a) r) := by
  constructor
  · intro fds
    by_cases h : fds.length = 1 <;> simp [decode_topk, h]
  · rw [decode_topk, if_pos h1]
    refine ⟨_, _, rfl, by simpa using hrows, by simpa using hrows, ?_, ?_, ?_⟩
    · intro r hr
      obtain ⟨row, hrow, hr⟩ := List.mem_map.mp hr
      rw [← hr]
      exact (top_k_length row _ (hwide row hrow)).2
    · intro r hr
      obtain ⟨row, hrow, hr⟩ := List.mem_map.mp hr
      rw [← hr, List.length_map]
      exact (top_k_length row _ (hwide row hrow)).1
    · intro r hr
      obtain ⟨row, hrow, hr⟩ := List.mem_map.mp hr
      rw [← hr]
      show List.Pairwise _ _
      rw [List.pairwise_map]
      exact (top_k_pairwise row _).imp (fun h => tfLog_le_tfLog h)

/-- Witness for C8: batch size 1, a single decoder step with one batch row
of three probabilities. -/
theorem decode_topk_shape_witness :
    (([[[0, 1, 1]]] : List (List (List ℚ))).length = 1 ∧
     ([[[0, 1, 1]]] : List (List (List ℚ))).headI.length = 1 ∧
     (∀ row ∈ ([[[0, 1, 1]]] : List (List (List ℚ))).headI, 1 * 2 ≤ row.length) ∧
     (∀ row ∈ ([[[0, 1, 1]]] : List (List (List ℚ))).headI, ∀ x ∈ row, 0 ≤ x)) ∧
    ((∀ fds : List (List (List ℚ)), (decode_topk 1 fds).isSome ↔ fds.length = 1) ∧
     ∃ ids lps, decode_topk 1 ([[[0, 1, 1]]] : List (List (List ℚ))) = some (ids, lps) ∧
       ids.length = 1 ∧ lps.length = 1 ∧
       (∀ r ∈ ids, r.length = 1 * 2) ∧
       (∀ r ∈ lps, r.length = 1 * 2) ∧
       (∀ r ∈ lps, List.Sorted (fun a b : EReal => b ≤ a) r)) :=
  ⟨⟨by norm_num, by norm_num, by norm_num, by norm_num⟩,
    decode_topk_shape 1 _ (by norm_num) (by norm_num) (by norm_num) (by norm_num)⟩

/- ------------------------------------------------------------------ -/
/- `_add_gcn_layer` (model_old.py lines 270-400).                      -/
/- ------------------------------------------------------------------ -/

/-- `tf.sigmoid`. -/
noncomputable def sigmoid (x : ℝ) : ℝ := 1 / (1 + Real.exp (-x))

/-- The trainable variables of one `_add_gcn_layer` call, indexed by layer
(and by label for the per-label gate biases).  Weight matrices are functions
(row, column) ↦ entry; the gate projections `w_gin`/`w_gout`/`w_gloop` have
shape `[in_dim, 1]` and are kept as row ↦ entry. -/
structure GCNWeights where
  w_in : ℕ → ℕ → ℕ → ℝ
  w_out : ℕ → ℕ → ℕ → ℝ
  w_loop : ℕ → ℕ → ℕ → ℝ
  b_layer : ℕ → ℝ
  b_out : ℕ → ℕ → ℝ
  w_gin : ℕ → ℕ → ℝ
  w_gout : ℕ → ℕ → ℝ
  w_gloop : ℕ → ℕ → ℝ
  b_gin : ℕ → ℕ → ℝ
  b_gout : ℕ → ℕ → ℝ
  b_gloop : ℕ → ℕ → ℝ
  w_adjust : ℕ → ℕ → ℕ → ℝ

/-- One layer of `_add_gcn_layer` (model_old.py lines 280-398).  Node
features are `(batch, node, feature)` tensors; `adj_in`/`adj_out` are
`(batch, label, row, column)` adjacency entries; contraction dimensions
(`in_dim` for the projections, `max_nodes` for the sparse-dense matmuls) are
explicit.  `dropFn` abstracts the randomized `tf.nn.dropout`, which the
source applies only when `dropout != 1.0`.  In the gated branch the source
computes `in_gsig`/`out_gsig` and the gated products, but the unconditional
reassignments `in_act = in_t` (line 344) and `out_act = out_t` (line 361)
then replace them; only the self-loop term keeps its gate.  The self-loop
block sits outside the label loop and reads `b_gloop` from the last label
iteration. -/
noncomputable def gcn_layer (W : GCNWeights)
    (layer max_nodes max_labels in_dim gcn_dim : ℕ)
    (adj_in adj_out : ℕ → ℕ → ℕ → ℕ → ℝ) (neighbour_count : ℕ → ℕ → ℝ)
    (use_gating use_skip use_normalization : Bool) (dropout : ℚ)
    (dropFn : (ℕ → ℕ → ℕ → ℝ) → (ℕ → ℕ → ℕ → ℝ))
    (gcn_in : ℕ → ℕ → ℕ → ℝ) : ℕ → ℕ → ℕ → ℝ :=
  let pre_com_o_in : ℕ → ℕ → ℕ → ℝ :=
    fun b i j => ∑ t ∈ Finset.range in_dim, gcn_in b i t * W.w_in layer t j
  let pre_com_o_out : ℕ → ℕ → ℕ → ℝ :=
    fun b i j => ∑ t ∈ Finset.range in_dim, gcn_in b i t * W.w_out layer t j
  let pre_com_o_loop : ℕ → ℕ → ℕ → ℝ :=
    fun b i j => ∑ t ∈ Finset.range in_dim, gcn_in b i t * W.w_loop layer t j
  let pre_com_o_gin : ℕ → ℕ → ℝ :=
    fun b i => ∑ t ∈ Finset.range in_dim, gcn_in b i t * W.w_gin layer t
  let pre_com_o_gout : ℕ → ℕ → ℝ :=
    fun b i => ∑ t ∈ Finset.range in_dim, gcn_in b i t * W.w_gout layer t
  let pre_com_o_gloop : ℕ → ℕ → ℝ :=
    fun b i => ∑ t ∈ Finset.range in_dim, gcn_in b i t * W.w_gloop layer t
  let in_act : ℕ → ℕ → ℕ → ℕ → ℝ := fun lbl =>
    let in_t := fun b i j =>
      ∑ t ∈ Finset.range max_nodes, adj_in b lbl i t * pre_com_o_in b t j
    let in_t := if dropout ≠ 1 then dropFn in_t else in_t
    let in_act := if use_gating then
        (fun b i j => in_t b i j * sigmoid
          (∑ t ∈ Finset.range max_nodes,
            adj_in b lbl i t * (pre_com_o_gin b t + W.b_gin layer lbl)))
      else in_t
    let in_act := in_t
    in_act
  let out_act : ℕ → ℕ → ℕ → ℕ → ℝ := fun lbl =>
    let out_t := fun b i j =>
      ∑ t ∈ Finset.range max_nodes, adj_out b lbl i t * pre_com_o_out b t j
    let out_t := if dropout ≠ 1 then dropFn out_t else out_t
    let out_act := if use_gating then
        (fun b i j => out_t b i j * sigmoid
          (∑ t ∈ Finset.range max_nodes,
            adj_out b lbl i t * (pre_com_o_gout b t + W.b_gout layer lbl)))
      else out_t
    let out_act := out_t
    out_act
  let inp_loop := pre_com_o_loop
  let inp_loop := if dropout ≠ 1 then dropFn inp_loop else inp_loop
  let loop_act := if use_gating then
      (fun b i j => inp_loop b i j *
        sigmoid (pre_com_o_gloop b i + W.b_gloop layer (max_labels - 1)))
    else inp_loop
  let act_sum := fun b i j =>
    (∑ lbl ∈ Finset.range max_labels, (in_act lbl b i j + out_act lbl b i j)) +
      loop_act b i j + W.b_out layer j
  let act_sum := if use_normalization then
      (fun b i j => act_sum b i j / neighbour_count b i)
    else act_sum
  let gcn_out := fun b i j => max (act_sum b i j) 0
  if use_skip then
    if in_dim ≠ gcn_dim then
      let gcn_in := fun b i j =>
        ∑ t ∈ Finset.range in_dim, gcn_in b i t * W.w_adjust layer t j
      fun b i j => W.b_layer layer * gcn_in b i j + (1 - W.b_layer layer) * gcn_out b i j
    else
      fun b i j => W.b_layer layer * gcn_in b i j + (1 - W.b_layer layer) * gcn_out b i j
  else gcn_out

/-- The layer loop of `_add_gcn_layer`: output `out[-1]` after the given
number of layers; after the first layer the input dimension becomes
`gcn_dim` (`if len(out) > 1: in_dim = gcn_dim`). -/
noncomputable def gcn_stack (W : GCNWeights)
    (max_nodes max_labels in_dim gcn_dim : ℕ)
    (adj_in adj_out : ℕ → ℕ → ℕ → ℕ → ℝ) (neighbour_count : ℕ → ℕ → ℝ)
    (use_gating use_skip use_normalization : Bool) (dropout : ℚ)
    (dropFn : (ℕ → ℕ → ℕ → ℝ) → (ℕ → ℕ → ℕ → ℝ))
    (gcn_in : ℕ → ℕ → ℕ → ℝ) : ℕ → (ℕ → ℕ → ℕ → ℝ)
  | 0 => gcn_in
  | k + 1 =>
      gcn_layer W k max_nodes max_labels (if k = 0 then in_dim else gcn_dim) gcn_dim
        adj_in adj_out neighbour_count use_gating use_skip use_normalization dropout dropFn
        (gcn_stack W max_nodes max_labels in_dim gcn_dim adj_in adj_out neighbour_count
          use_gating use_skip use_normalization dropout dropFn gcn_in k)

/-- `SummarizationModel._add_gcn_layer` (model_old.py lines 270-400).
`use_label_information` is the keyword parameter of the source (line 271),
`hps_use_label_information` the hyperparameter `self._hps.use_label_information`
read at line 278: when the latter is false, `max_labels` collapses to 1.
The keyword parameter is never read by the body. -/
noncomputable def add_gcn_layer (W : GCNWeights)
    (max_nodes max_labels in_dim gcn_dim : ℕ)
    (adj_in adj_out : ℕ → ℕ → ℕ → ℕ → ℝ) (neighbour_count : ℕ → ℕ → ℝ)
    (num_layers : ℕ) (use_gating use_skip use_normalization : Bool) (dropout : ℚ)
    (dropFn : (ℕ → ℕ → ℕ → ℝ) → (ℕ → ℕ → ℕ → ℝ))
    (use_label_information : Bool) (hps_use_label_information : Bool)
    (gcn_in : ℕ → ℕ → ℕ → ℝ) : ℕ → ℕ → ℕ → ℝ :=
  let max_labels := if hps_use_label_information then max_labels else 1
  gcn_stack W max_nodes max_labels in_dim gcn_dim adj_in adj_out neighbour_count
    use_gating use_skip use_normalization dropout dropFn gcn_in num_layers

/-- The GCN layer as claim C6 words it (this definition follows the spec's
words, for comparison with `gcn_layer` taken from the source): each of the
in-arc, out-arc and self-loop contributions is multiplied by its own sigmoid
scalar gate before entering the sum — i.e. the `in_act = in_t` /
`out_act = out_t` reassignments of the source are absent. -/
noncomputable def gcn_layer_all_gated (W : GCNWeights)
    (layer max_nodes max_labels in_dim gcn_dim : ℕ)
    (adj_in adj_out : ℕ → ℕ → ℕ → ℕ → ℝ) (neighbour_count : ℕ → ℕ → ℝ)
    (use_gating use_skip use_normalization : Bool) (dropout : ℚ)
    (dropFn : (ℕ → ℕ → ℕ → ℝ) → (ℕ → ℕ → ℕ → ℝ))
    (gcn_in : ℕ → ℕ → ℕ → ℝ) : ℕ → ℕ → ℕ → ℝ :=
  let pre_com_o_in : ℕ → ℕ → ℕ → ℝ :=
    fun b i j => ∑ t ∈ Finset.range in_dim, gcn_in b i t * W.w_in layer t j
  let pre_com_o_out : ℕ → ℕ → ℕ → ℝ :=
    fun b i j => ∑ t ∈ Finset.range in_dim, gcn_in b i t * W.w_out layer t j
  let pre_com_o_loop : ℕ → ℕ → ℕ → ℝ :=
    fun b i j => ∑ t ∈ Finset.range in_dim, gcn_in b i t * W.w_loop layer t j
  let pre_com_o_gin : ℕ → ℕ → ℝ :=
    fun b i => ∑ t ∈ Finset.range in_dim, gcn_in b i t * W.w_gin layer t
  let pre_com_o_gout : ℕ → ℕ → ℝ :=
    fun b i => ∑ t ∈ Finset.range in_dim, gcn_in b i t * W.w_gout layer t
  let pre_com_o_gloop : ℕ → ℕ → ℝ :=
    fun b i => ∑ t ∈ Finset.range in_dim, gcn_in b i t * W.w_gloop layer t
  let in_act : ℕ → ℕ → ℕ → ℕ → ℝ := fun lbl =>
    let in_t := fun b i j =>
      ∑ t ∈ Finset.range max_nodes, adj_in b lbl i t * pre_com_o_in b t j
    let in_t := if dropout ≠ 1 then dropFn in_t else in_t
    if use_gating then
      (fun b i j => in_t b i j * sigmoid
        (∑ t ∈ Finset.range max_nodes,
          adj_in b lbl i t * (pre_com_o_gin b t + W.b_gin layer lbl)))
    else in_t
  let out_act : ℕ → ℕ → ℕ → ℕ → ℝ := fun lbl =>
    let out_t := fun b i j =>
      ∑ t ∈ Finset.range max_nodes, adj_out b lbl i t * pre_com_o_out b t j
    let out_t := if dropout ≠ 1 then dropFn out_t else out_t
    if use_gating then
      (fun b i j => out_t b i j * sigmoid
        (∑ t ∈ Finset.range max_nodes,
          adj_out b lbl i t * (pre_com_o_gout b t + W.b_gout layer lbl)))
    else out_t
  let inp_loop := pre_com_o_loop
  let inp_loop := if dropout ≠ 1 then dropFn inp_loop else inp_loop
  let loop_act := if use_gating then
      (fun b i j => inp_loop b i j *
        sigmoid (pre_com_o_gloop b i + W.b_gloop layer (max_labels - 1)))
    else inp_loop
  let act_sum := fun b i j =>
    (∑ lbl ∈ Finset.range max_labels, (in_act lbl b i j + out_act lbl b i j)) +
      loop_act b i j + W.b_out layer j
  let act_sum := if use_normalization then
      (fun b i j => act_sum b i j / neighbour_count b i)
    else act_sum
  let gcn_out := fun b i j => max (act_sum b i j) 0
  if use_skip then
    if in_dim ≠ gcn_dim then
      let gcn_in := fun b i j =>
        ∑ t ∈ Finset.range in_dim, gcn_in b i t * W.w_adjust layer t j
      fun b i j => W.b_layer layer * gcn_in b i j + (1 - W.b_layer layer) * gcn_out b i j
    else
      fun b i j => W.b_layer layer * gcn_in b i j + (1 - W.b_layer layer) * gcn_out b i j
  else gcn_out

/-- The GCN layer with the gate applied only to the self-loop term — the
amended reading of claim C6 (spec §9: the in/out gate computations are
discarded by the source's reassignments, so only the self-loop contribution
is gated; the in/out branches contribute their ungated projections). -/
noncomputable def gcn_layer_loop_gated (W : GCNWeights)
    (layer max_nodes max_labels in_dim gcn_dim : ℕ)
    (adj_in adj_out : ℕ → ℕ → ℕ → ℕ → ℝ) (neighbour_count : ℕ → ℕ → ℝ)
    (use_gating use_skip use_normalization : Bool) (dropout : ℚ)
    (dropFn : (ℕ → ℕ → ℕ → ℝ) → (ℕ → ℕ → ℕ → ℝ))
    (gcn_in : ℕ → ℕ → ℕ → ℝ) : ℕ → ℕ → ℕ → ℝ :=
  let pre_com_o_in : ℕ → ℕ → ℕ → ℝ :=
    fun b i j => ∑ t ∈ Finset.range in_dim, gcn_in b i t * W.w_in layer t j
  let pre_com_o_out : ℕ → ℕ → ℕ → ℝ :=
    fun b i j => ∑ t ∈ Finset.range in_dim, gcn_in b i t * W.w_out layer t j
  let pre_com_o_loop : ℕ → ℕ → ℕ → ℝ :=
    fun b i j => ∑ t ∈ Finset.range in_dim, gcn_in b i t * W.w_loop layer t j
  let pre_com_o_gloop : ℕ → ℕ → ℝ :=
    fun b i => ∑ t ∈ Finset.range in_dim, gcn_in b i t * W.w_gloop layer t
  let in_act : ℕ → ℕ → ℕ → ℕ → ℝ := fun lbl =>
    let in_t := fun b i j =>
      ∑ t ∈ Finset.range max_nodes, adj_in b lbl i t * pre_com_o_in b t j
    let in_t := if dropout ≠ 1 then dropFn in_t else in_t
    in_t
  let out_act : ℕ → ℕ → ℕ → ℕ → ℝ := fun lbl =>
    let out_t := fun b i j =>
      ∑ t ∈ Finset.range max_nodes, adj_out b lbl i t * pre_com_o_out b t j
    let out_t := if dropout ≠ 1 then dropFn out_t else out_t
    out_t
  let inp_loop := pre_com_o_loop
  let inp_loop := if dropout ≠ 1 then dropFn inp_loop else inp_loop
  let loop_act := if use_gating then
      (fun b i j => inp_loop b i j *
        sigmoid (pre_com_o_gloop b i + W.b_gloop layer (max_labels - 1)))
    else inp_loop
  let act_sum := fun b i j =>
    (∑ lbl ∈ Finset.range max_labels, (in_act lbl b i j + out_act lbl b i j)) +
      loop_act b i j + W.b_out layer j
  let act_sum := if use_normalization then
      (fun b i j => act_sum b i j / neighbour_count b i)
    else act_sum
  let gcn_out := fun b i j => max (act_sum b i j) 0
  if use_skip then
    if in_dim ≠ gcn_dim then
      let gcn_in := fun b i j =>
        ∑ t ∈ Finset.range in_dim, gcn_in b i t * W.w_adjust layer t j
      fun b i j => W.b_layer layer * gcn_in b i j + (1 - W.b_layer layer) * gcn_out b i j
    else
      fun b i j => W.b_layer layer * gcn_in b i j + (1 - W.b_layer layer) * gcn_out b i j
  else gcn_out

/-- Concrete inputs for the C6 counterexample: one batch element, one node,
one label, scalar features; unit in/out projections, zero loop and gate
projections, zero biases, all-ones adjacency, gating on, skip and
normalization off, no dropout, unit input features. -/
noncomputable def cexW : GCNWeights where
  w_in := fun _ _ _ => 1
  w_out := fun _ _ _ => 1
  w_loop := fun _ _ _ => 0
  b_layer := fun _ => 0
  b_out := fun _ _ => 0
  w_gin := fun _ _ => 0
  w_gout := fun _ _ => 0
  w_gloop := fun _ _ => 0
  b_gin := fun _ _ => 0
  b_gout := fun _ _ => 0
  b_gloop := fun _ _ => 0
  w_adjust := fun _ _ _ => 0

/-- Counterexample to claim C6: with gating enabled on a one-node, one-label
graph with unit features, unit in/out projections and zero gate
pre-activations (so every sigmoid gate equals 1/2), the source layer outputs
2 — the ungated in/out projections enter the sum — while the layer described
by the claim (all three contributions gated) outputs 1.  The claim that the
gated activations enter the sum for all three branches is therefore false of
the code. -/
theorem gcn_layer_not_all_gated :
    gcn_layer cexW 0 1 1 1 1 (fun _ _ _ _ => 1) (fun _ _ _ _ => 1) (fun _ _ => 1)
        true false false 1 id (fun _ _ _ => 1) 0 0 0 = 2 ∧
    gcn_layer_all_gated cexW 0 1 1 1 1 (fun _ _ _ _ => 1) (fun _ _ _ _ => 1) (fun _ _ => 1)
        true false false 1 id (fun _ _ _ => 1) 0 0 0 = 1 ∧
    (2 : ℝ) ≠ 1 := by
  refine ⟨?_, ?_, by norm_num⟩
  · rw [gcn_layer]
    simp only [cexW, Finset.sum_range_one]
    norm_num [sigmoid, Real.exp_zero]
  · rw [gcn_layer_all_gated]
    simp only [cexW, Finset.sum_range_one]
    norm_num [sigmoid, Real.exp_zero]

/-- Claim C6 (amended): when `use_gating` is enabled, only the self-loop
contribution is multiplied by its sigmoid gate; the in-arc and out-arc gate
computations are discarded by the source's unconditional `in_act = in_t` and
`out_act = out_t` reassignments, so the layer coincides — for every input,
weight assignment and flag setting — with the layer that never gates the
in/out branches and gates only the self-loop term. -/
theorem gcn_layer_eq_loop_gated (W : GCNWeights)
    (layer max_nodes max_labels in_dim gcn_dim : ℕ)
    (adj_in adj_out : ℕ → ℕ → ℕ → ℕ → ℝ) (neighbour_count : ℕ → ℕ → ℝ)
    (use_gating use_skip use_normalization : Bool) (dropout : ℚ)
    (dropFn : (ℕ → ℕ → ℕ → ℝ) → (ℕ → ℕ → ℕ → ℝ))
    (gcn_in : ℕ → ℕ → ℕ → ℝ) :
    gcn_layer W layer max_nodes max_labels in_dim gcn_dim adj_in adj_out neighbour_count
        use_gating use_skip use_normalization dropout dropFn gcn_in =
      gcn_layer_loop_gated W layer max_nodes max_labels in_dim gcn_dim adj_in adj_out
        neighbour_count use_gating use_skip use_normalization dropout dropFn gcn_in := rfl

/-- Claim C10: the output of `_add_gcn_layer` does not depend on its
`use_label_information` keyword parameter — the body never reads it; the
single-label collapse is decided solely by the hyperparameter
`self._hps.use_label_information`. -/
theorem add_gcn_layer_param_independent (W : GCNWeights)
    (max_nodes max_labels in_dim gcn_dim : ℕ)
    (adj_in adj_out : ℕ → ℕ → ℕ → ℕ → ℝ) (neighbour_count : ℕ → ℕ → ℝ)
    (num_layers : ℕ) (use_gating use_skip use_normalization : Bool) (dropout : ℚ)
    (dropFn : (ℕ → ℕ → ℕ → ℝ) → (ℕ → ℕ → ℕ → ℝ))
    (u₁ u₂ : Bool) (hps_use_label_information : Bool)
    (gcn_in : ℕ → ℕ → ℕ → ℝ) :
    add_gcn_layer W max_nodes max_labels in_dim gcn_dim adj_in adj_out neighbour_count
        num_layers use_gating use_skip use_normalization dropout dropFn
        u₁ hps_use_label_information gcn_in =
      add_gcn_layer W max_nodes max_labels in_dim gcn_dim adj_in adj_out neighbour_count
        num_layers use_gating use_skip use_normalization dropout dropFn
        u₂ hps_use_label_information gcn_in := rfl
